import Mathlib

/-!
Shallow embedding of the `headcoin` peer-to-peer ledger node
(`blockchain_core.py` and the listener logic of `node.py`).

The SHA-256 digest of the sorted-key JSON encoding (`_hash_dict`) is kept
abstract: every definition and theorem is parametric in a hash function
`H : Block → String`, since all control flow of the source depends on the
digest only through string comparison and the `startswith "0000"` test.

Python floats appearing as transaction amounts are modelled by `PyFloat`
(a rational, or one of the IEEE special values `inf`, `ninf`, `nan`),
which is enough to reproduce the `float(...)` conversion and the
`amt <= 0` comparison of `add_transaction` exactly, including the IEEE
rule that `nan <= 0` is false.  A transaction's amount field on the wire
can also be a value that `float(...)` cannot convert (the `try/except`
branch); `AmountVal.bad` stands for any such value.
-/

/-- Model of a Python float value: a finite value (as a rational), or one of
the special values `+inf`, `-inf`, `nan`. -/
inductive PyFloat where
  | num (q : ℚ)
  | inf
  | ninf
  | nan
deriving DecidableEq, Repr

/-- The runtime value found in a transaction's `amount` field: either something
`float(...)` converts to a `PyFloat`, or a value on which `float(...)` raises
(modelled opaquely as `bad`). -/
inductive AmountVal where
  | fl (v : PyFloat)
  | bad
deriving DecidableEq, Repr

/-- Python `float(x)`: returns the converted float, or `none` when the
conversion raises (the `except` branch of `add_transaction`). -/
def floatOf : AmountVal → Option PyFloat
  | .fl v => some v
  | .bad => none

/-- The Python comparison `amt <= 0` on a float, with IEEE semantics:
`nan <= 0` and `inf <= 0` are false, `-inf <= 0` is true. -/
def leZeroF : PyFloat → Bool
  | .num q => q ≤ 0
  | .inf => false
  | .ninf => true
  | .nan => false

/-- `TransactionType` from `data_types.py`.  A missing `sender`, `receiver`
or `tx_id` key behaves like the empty string under `tx.get(...)` falsiness,
so string fields with `""` standing for absent/empty. -/
structure Transaction where
  tx_id : String
  sender : String
  receiver : String
  amount : AmountVal
  type : String
deriving DecidableEq, Repr

/-- `BlockType` from `data_types.py`. -/
structure Block where
  index : Nat
  timestamp : String
  nonce : Nat
  previous_hash : String
  transactions : List Transaction
deriving DecidableEq, Repr

/-- Python `==` on two float values: structural on finite values and
infinities, but `nan != nan`. -/
def pyEqFloat : PyFloat → PyFloat → Bool
  | .num a, .num b => a == b
  | .inf, .inf => true
  | .ninf, .ninf => true
  | _, _ => false

/-- Python `==` on two amount fields (only ever exercised on empty
transaction lists in the source's comparisons, via the genesis check). -/
def pyEqAmount : AmountVal → AmountVal → Bool
  | .fl a, .fl b => pyEqFloat a b
  | .bad, .bad => true
  | _, _ => false

/-- Python `==` on transaction dicts. -/
def pyEqTx (a b : Transaction) : Bool :=
  a.tx_id == b.tx_id && a.sender == b.sender && a.receiver == b.receiver &&
    pyEqAmount a.amount b.amount && a.type == b.type

/-- Python `==` on lists of transaction dicts. -/
def pyEqTxList : List Transaction → List Transaction → Bool
  | [], [] => true
  | a :: as_, b :: bs => pyEqTx a b && pyEqTxList as_ bs
  | _, _ => false

/-- Python `==` on block dicts (used by `chain[0] != GENESIS`). -/
def pyEqBlock (a b : Block) : Bool :=
  a.index == b.index && a.timestamp == b.timestamp && a.nonce == b.nonce &&
    a.previous_hash == b.previous_hash && pyEqTxList a.transactions b.transactions

/-- The deterministic genesis block `GENESIS` of `blockchain_core.py`. -/
def GENESIS : Block :=
  { index := 1
    timestamp := "2025-01-01T00:00:00Z"
    nonce := 1
    previous_hash := "0"
    transactions := [] }

/-- The proof-of-work predicate: the digest starts with four hex zeros.
Python's `s.startswith("0000")` is modelled as the character sequence
`"0000"` being a prefix of the character sequence of `s`. -/
def powOk (s : String) : Bool := "0000".data.isPrefixOf s.data

/-- The fixed block reward `BLOCK_REWARD = 50.0`. -/
def BLOCK_REWARD : PyFloat := .num 50

/-! ### The mempool as an insertion-ordered dict -/

/-- `tx_id in self.mempool` (dict key membership). -/
def dictContains (mp : List (String × Transaction)) (k : String) : Bool :=
  mp.any (fun kv => kv.1 == k)

/-- `self.mempool[tx_id]` lookup (keys are unique in a Python dict, so the
first hit is the entry). -/
def dictFind? (mp : List (String × Transaction)) (k : String) : Option Transaction :=
  (mp.find? (fun kv => kv.1 == k)).map Prod.snd

/-- `self.mempool[tx_id] = tx`: replace in place when the key exists,
append otherwise (Python dicts preserve insertion order). -/
def dictSet (mp : List (String × Transaction)) (k : String) (v : Transaction) :
    List (String × Transaction) :=
  if dictContains mp k then
    mp.map (fun kv => if kv.1 == k then (k, v) else kv)
  else
    mp ++ [(k, v)]

/-- `self.mempool.pop(k, None)`: drop the entry with key `k` if present.
On lists representing dicts (unique keys) this is exactly dict deletion. -/
def dictPop (mp : List (String × Transaction)) (k : String) : List (String × Transaction) :=
  mp.filter (fun kv => !(kv.1 == k))

/-- `self.mempool.values()` in insertion order. -/
def dictValues (mp : List (String × Transaction)) : List Transaction :=
  mp.map Prod.snd

/-! ### The `Blockchain` class -/

/-- The mutable state of the `Blockchain` class: `self.chain` and
`self.mempool`. -/
structure Blockchain where
  chain : List Block
  mempool : List (String × Transaction)
deriving DecidableEq, Repr

/-- `Blockchain.__init__`: chain `[GENESIS]`, empty mempool. -/
def freshBlockchain : Blockchain := { chain := [GENESIS], mempool := [] }

/-- `_remove_confirmed_from_mempool`: pop the `tx_id` of every
regular-type transaction of the list from the mempool. -/
def removeConfirmed (mp : List (String × Transaction)) :
    List Transaction → List (String × Transaction)
  | [] => mp
  | t :: ts => removeConfirmed (if t.type == "regular" then dictPop mp t.tx_id else mp) ts

namespace Blockchain

/-- `_build_block`: the block dict literal (the wall-clock timestamp is an
input from the environment). -/
def build_block (bc : Blockchain) (nonce : Nat) (previous_hash : String)
    (txs : List Transaction) (ts : String) : Block :=
  { index := bc.chain.length + 1
    timestamp := ts
    nonce := nonce
    previous_hash := previous_hash
    transactions := txs }

/-- `get_latest_block`: `self.chain[-1]` (raises on an empty chain, hence
the explicit nonemptiness argument). -/
def get_latest_block (bc : Blockchain) (h : bc.chain ≠ []) : Block :=
  bc.chain.getLast h

/-- The coinbase transaction built by `mine_block`. -/
def coinbaseTx (idx : Nat) (miner_address : String) : Transaction :=
  { tx_id := "coinbase-" ++ toString idx
    sender := "COINBASE"
    receiver := miner_address
    amount := .fl BLOCK_REWARD
    type := "coinbase" }

/-- The candidate block examined by `mine_block`'s proof-of-work loop at a
given nonce: previous hash of the tip, coinbase first, then the mempool
snapshot. -/
def mineCandidate (H : Block → String) (bc : Blockchain) (miner_address ts : String)
    (h : bc.chain ≠ []) (nonce : Nat) : Block :=
  bc.build_block nonce (H (bc.get_latest_block h))
    (coinbaseTx (bc.chain.length + 1) miner_address :: dictValues bc.mempool) ts

/-- `mine_block`: search nonces 1, 2, … until the digest satisfies the
proof-of-work predicate (the `while` loop terminates exactly when some
nonce works, which is the hypothesis `hex`), append the found block and
remove its confirmed transactions from the mempool. -/
def mine_block (H : Block → String) (bc : Blockchain) (miner_address ts : String)
    (h : bc.chain ≠ [])
    (hex : ∃ n, powOk (H (mineCandidate H bc miner_address ts h (n + 1))) = true) :
    Block × Blockchain :=
  let block := mineCandidate H bc miner_address ts h (Nat.find hex + 1)
  (block,
    { chain := bc.chain ++ [block]
      mempool := removeConfirmed bc.mempool block.transactions })

/-- The validation loop of `is_chain_valid` over consecutive pairs:
`_hash_dict(curr).startswith("0000")` and `curr["previous_hash"] ==
_hash_dict(prev)`. -/
def chainLinksOk (H : Block → String) : List Block → Bool
  | [] => true
  | [_] => true
  | prev :: curr :: rest =>
      (powOk (H curr) && curr.previous_hash == H prev) && chainLinksOk H (curr :: rest)

/-- `is_chain_valid(chain=None)`.  `chain = chain or self.chain` falls back
to `self.chain` both when the argument is `None` and when it is the empty
list (Python falsiness); then the chain must be nonempty, start with a
block `==`-equal to `GENESIS`, and every consecutive pair must pass the
proof-of-work and back-link checks. -/
def is_chain_valid (H : Block → String) (bc : Blockchain)
    (arg : Option (List Block)) : Bool :=
  let chain := match arg with
    | none => bc.chain
    | some c => if c.isEmpty then bc.chain else c
  match chain with
  | [] => false
  | g :: rest => pyEqBlock g GENESIS && chainLinksOk H (g :: rest)

/-- `validate_and_add_block`: accept iff the block's digest passes
proof-of-work and its `previous_hash` equals the tip's digest; on success
append it and remove its confirmed transactions from the mempool. -/
def validate_and_add_block (H : Block → String) (bc : Blockchain) (block : Block)
    (h : bc.chain ≠ []) : Bool × Blockchain :=
  if ¬ (powOk (H block) = true) ∨ ¬ (block.previous_hash = H (bc.get_latest_block h)) then
    (false, bc)
  else
    (true,
      { chain := bc.chain ++ [block]
        mempool := removeConfirmed bc.mempool block.transactions })

/-- Is `tid` the id of some regular-type transaction in the list? -/
def regularIdInTxs (txs : List Transaction) (tid : String) : Bool :=
  txs.any (fun t => t.type == "regular" && t.tx_id == tid)

/-- The membership test against the `confirmed_ids` set comprehension of
`replace_chain`: is `tid` the id of some regular-type transaction in some
block of the chain? -/
def confirmedRegularId (chain : List Block) (tid : String) : Bool :=
  chain.any (fun blk => regularIdInTxs blk.transactions tid)

/-- `replace_chain`: adopt the candidate iff it passes `is_chain_valid` and
is strictly longer than the current chain; on adoption filter the mempool
down to ids not confirmed as regular transactions in the new chain. -/
def replace_chain (H : Block → String) (bc : Blockchain) (new_chain : List Block) :
    Bool × Blockchain :=
  if ¬ (is_chain_valid H bc (some new_chain) = true) ∨ new_chain.length ≤ bc.chain.length then
    (false, bc)
  else
    (true,
      { chain := new_chain
        mempool := bc.mempool.filter (fun kv => !(confirmedRegularId new_chain kv.1)) })

/-- `add_transaction`: the validation cascade of the source, in order —
`float(tx["amount"])` conversion, `amt <= 0`, falsy `sender`/`receiver`/
`tx_id`, type outside `{"regular", "coinbase"}`, duplicate pending id
(returning the stored entry), coinbase rejection, and finally insertion. -/
def add_transaction (bc : Blockchain) (tx : Transaction) :
    Bool × Transaction × Blockchain :=
  match floatOf tx.amount with
  | none => (false, tx, bc)
  | some amt =>
    if leZeroF amt then (false, tx, bc)
    else if tx.sender == "" || tx.receiver == "" || tx.tx_id == "" then (false, tx, bc)
    else if ¬ (tx.type = "regular" ∨ tx.type = "coinbase") then (false, tx, bc)
    else if dictContains bc.mempool tx.tx_id then
      (false, (dictFind? bc.mempool tx.tx_id).getD tx, bc)
    else if tx.type == "coinbase" then (false, tx, bc)
    else (true, tx, { bc with mempool := dictSet bc.mempool tx.tx_id tx })

end Blockchain

/-! ### The node's listener (gossip handling from `node.py`) -/

/-- A peer address `(ip, port)`. -/
abbrev Peer := String × Nat

/-- The node-local state touched by the `new_transaction` branch of
`listen`: the ledger and the gossip-dedup set `seen_tx_ids`. -/
structure NodeState where
  blockchain : Blockchain
  seen : List String
  peers : List Peer
deriving DecidableEq

/-- A `new_transaction` datagram scheduled for a peer: the target address,
the transaction and the decremented TTL. -/
structure TxSend where
  target : Peer
  tx : Transaction
  ttl : Int
deriving DecidableEq

/-- The `new_transaction` branch of `Node.listen`: drop when the id is
falsy or already seen; otherwise mark it seen, attempt `add_transaction`
(its outcome is not consulted further), and when `ttl > 0` re-broadcast
to every peer except the datagram's sender with `ttl - 1`. -/
def handleNewTransaction (node : NodeState) (tx : Transaction) (ttl : Int)
    (sender : Peer) : NodeState × List TxSend :=
  if tx.tx_id == "" || node.seen.contains tx.tx_id then
    (node, [])
  else
    let bc' := (node.blockchain.add_transaction tx).2.2
    let out :=
      if ttl > 0 then
        (node.peers.filter (fun p => ¬ p = sender)).map
          (fun p => { target := p, tx := tx, ttl := ttl - 1 })
      else []
    ({ node with blockchain := bc', seen := node.seen ++ [tx.tx_id] }, out)

/-! ### Reachable ledger states and mining sequences -/

/-- Ledger states reachable from a fresh `Blockchain()` by any sequence of
`mine_block`, `validate_and_add_block`, `replace_chain` and
`add_transaction` calls, with a fixed hash function `H`. -/
inductive Reach (H : Block → String) : Blockchain → Prop where
  | init : Reach H freshBlockchain
  | mine (bc : Blockchain) (miner ts : String) (h : bc.chain ≠ [])
      (hex : ∃ n, powOk (H (Blockchain.mineCandidate H bc miner ts h (n + 1))) = true) :
      Reach H bc → Reach H (Blockchain.mine_block H bc miner ts h hex).2
  | addBlock (bc : Blockchain) (b : Block) (h : bc.chain ≠ []) :
      Reach H bc → Reach H (Blockchain.validate_and_add_block H bc b h).2
  | replace (bc : Blockchain) (c : List Block) :
      Reach H bc → Reach H (Blockchain.replace_chain H bc c).2
  | addTx (bc : Blockchain) (tx : Transaction) :
      Reach H bc → Reach H (bc.add_transaction tx).2.2

/-- `MineSeq H bc n bc'`: `bc'` results from `bc` by exactly `n`
`mine_block` calls (with arbitrary miner addresses and timestamps). -/
inductive MineSeq (H : Block → String) : Blockchain → Nat → Blockchain → Prop where
  | refl (bc : Blockchain) : MineSeq H bc 0 bc
  | step (bc : Blockchain) (n : Nat) (bc' : Blockchain) (miner ts : String)
      (h : bc'.chain ≠ [])
      (hex : ∃ n, powOk (H (Blockchain.mineCandidate H bc' miner ts h (n + 1))) = true) :
      MineSeq H bc n bc' →
      MineSeq H bc (n + 1) (Blockchain.mine_block H bc' miner ts h hex).2

/-! ### Concrete instances for witnesses and counterexamples -/

/-- A concrete hash function under which every digest passes proof-of-work
(used to instantiate the parametric theorems at concrete inputs). -/
def H0 : Block → String := fun _ => "0000"

/-- The one-step linkage relation checked between consecutive blocks of a
chain: the later block passes proof-of-work and points back at the digest
of the earlier one. -/
def linkedStep (H : Block → String) (a b : Block) : Prop :=
  powOk (H b) = true ∧ b.previous_hash = H a

/-- Well-formedness of a mempool: every entry is stored under its
transaction's id and is regular-typed. -/
def MempoolWF (mp : List (String × Transaction)) : Prop :=
  ∀ kv ∈ mp, kv.1 = kv.2.tx_id ∧ kv.2.type = "regular"

/-- A well-formed regular transaction. -/
def t1 : Transaction :=
  { tx_id := "t1", sender := "a", receiver := "b",
    amount := .fl (.num 10), type := "regular" }

/-- A transaction whose amount is `+inf`: positive for the `amt <= 0`
comparison but not finite. -/
def txInf : Transaction := { t1 with amount := .fl .inf }

/-- A resubmission of `t1`'s id with a different, non-positive amount. -/
def txBad : Transaction := { t1 with amount := .fl (.num (-5)) }

/-- A transaction with an empty (falsy) id. -/
def txEmptyId : Transaction := { t1 with tx_id := "" }

/-- The ledger after accepting `t1` into a fresh mempool. -/
def bcA : Blockchain := (freshBlockchain.add_transaction t1).2.2

/-- A block that extends a fresh chain under `H0`: its digest `"0000"`
passes proof-of-work and its `previous_hash` is the tip's digest. -/
def b0 : Block :=
  { index := 2, timestamp := "tsb", nonce := 1, previous_hash := "0000",
    transactions := [] }

/-- Like `b0` but with an out-of-sequence `index` field. -/
def b999 : Block := { b0 with index := 999 }

/-- A valid two-block candidate chain under `H0`. -/
def cand2 : List Block := [GENESIS, b0]

/-- A fresh chain is nonempty. -/
def fresh_chain_ne : freshBlockchain.chain ≠ [] := by decide

/-- Under `H0` every nonce passes proof-of-work, so the mining search on a
fresh ledger terminates. -/
def fresh_hex :
    ∃ n, powOk (H0 (Blockchain.mineCandidate H0 freshBlockchain "alice" "tsA"
      fresh_chain_ne (n + 1))) = true := ⟨0, by decide⟩

/-- The ledger after one `mine_block` call on a fresh ledger under `H0`. -/
def bc1 : Blockchain :=
  (Blockchain.mine_block H0 freshBlockchain "alice" "tsA" fresh_chain_ne fresh_hex).2

/-- `bc1` results from one mining step on a fresh ledger. -/
def mineSeq_bc1 : MineSeq H0 freshBlockchain 1 bc1 :=
  MineSeq.step freshBlockchain 0 freshBlockchain "alice" "tsA" fresh_chain_ne fresh_hex
    (MineSeq.refl freshBlockchain)

/-- `bc1`'s chain has more than one block. -/
def bc1_len1 : 1 < bc1.chain.length := by decide

/-- `bcA`'s chain is nonempty. -/
def bcA_chain_ne : bcA.chain ≠ [] := by decide

/-- The mining search on `bcA` terminates under `H0`. -/
def bcA_hex :
    ∃ n, powOk (H0 (Blockchain.mineCandidate H0 bcA "m" "tsB"
      bcA_chain_ne (n + 1))) = true := ⟨0, by decide⟩

/-- A node with one peer, an empty seen-set and a fresh ledger. -/
def node0 : NodeState :=
  { blockchain := freshBlockchain, seen := [], peers := [("1.2.3.4", 5)] }

/-! ### Helper lemmas -/

theorem removeConfirmed_eq_filter (txs : List Transaction)
    (mp : List (String × Transaction)) :
    removeConfirmed mp txs =
      mp.filter (fun kv => !(Blockchain.regularIdInTxs txs kv.1)) := by
  induction txs generalizing mp with
  | nil => simp [removeConfirmed, Blockchain.regularIdInTxs]
  | cons t ts ih =>
    rw [removeConfirmed, ih]
    by_cases h : t.type = "regular"
    · simp only [h, beq_self_eq_true, if_pos, dictPop, List.filter_filter]
      apply List.filter_congr
      intro kv _
      by_cases hk : kv.1 = t.tx_id
      · simp [Blockchain.regularIdInTxs, hk, h]
      · have hk1 : (kv.1 == t.tx_id) = false := by simp [hk]
        have hk2 : (t.tx_id == kv.1) = false := by simp [Ne.symm hk]
        simp [Blockchain.regularIdInTxs, hk1, hk2, h]
    · have hb : (t.type == "regular") = false := by simp [h]
      simp only [hb, Bool.false_eq_true, if_neg, not_false_iff]
      apply List.filter_congr
      intro kv _
      simp [Blockchain.regularIdInTxs, hb]

theorem mem_removeConfirmed (txs : List Transaction)
    (mp : List (String × Transaction)) (kv : String × Transaction)
    (h : kv ∈ removeConfirmed mp txs) : kv ∈ mp := by
  rw [removeConfirmed_eq_filter] at h
  exact List.mem_of_mem_filter h

theorem removeConfirmed_eq_nil (txs : List Transaction)
    (mp : List (String × Transaction))
    (h : ∀ kv ∈ mp, ∃ t, t ∈ txs ∧ t.type = "regular" ∧ t.tx_id = kv.1) :
    removeConfirmed mp txs = [] := by
  rw [removeConfirmed_eq_filter]
  rw [List.filter_eq_nil_iff]
  intro kv hkv
  obtain ⟨t, ht, hty, hid⟩ := h kv hkv
  simp only [Blockchain.regularIdInTxs, Bool.not_eq_true', Bool.not_eq_false]
  rw [List.any_eq_true]
  exact ⟨t, ht, by simp [hty, hid]⟩

theorem chainLinksOk_iff (H : Block → String) (c : List Block) :
    Blockchain.chainLinksOk H c = true ↔ List.Chain' (linkedStep H) c := by
  induction c with
  | nil => simp [Blockchain.chainLinksOk]
  | cons a tl ih =>
    cases tl with
    | nil => simp [Blockchain.chainLinksOk]
    | cons b tl2 =>
      rw [Blockchain.chainLinksOk, List.chain'_cons]
      rw [Bool.and_eq_true, Bool.and_eq_true]
      rw [ih]
      constructor
      · rintro ⟨⟨hp, hl⟩, hc⟩
        exact ⟨⟨hp, by simpa using hl⟩, hc⟩
      · rintro ⟨⟨hp, hl⟩, hc⟩
        exact ⟨⟨hp, by simpa using hl⟩, hc⟩

theorem dictSet_of_not_contains (mp : List (String × Transaction)) (k : String)
    (v : Transaction) (h : dictContains mp k = false) :
    dictSet mp k v = mp ++ [(k, v)] := by
  simp [dictSet, h]

namespace Blockchain

theorem add_transaction_fst_iff (bc : Blockchain) (tx : Transaction) :
    (bc.add_transaction tx).1 = true ↔
      (∃ v, floatOf tx.amount = some v ∧ leZeroF v = false) ∧
      tx.sender ≠ "" ∧ tx.receiver ≠ "" ∧ tx.tx_id ≠ "" ∧
      tx.type = "regular" ∧ dictContains bc.mempool tx.tx_id = false := by
  cases hf : floatOf tx.amount with
  | none => simp [add_transaction, hf]
  | some v =>
    simp only [add_transaction, hf]
    split_ifs with h1 h2 h3 h4 h5 <;> simp_all
    all_goals tauto

theorem add_transaction_fst_false (bc : Blockchain) (tx : Transaction)
    (h : (bc.add_transaction tx).1 = false) : (bc.add_transaction tx).2.2 = bc := by
  cases hf : floatOf tx.amount with
  | none => simp [add_transaction, hf]
  | some v =>
    simp only [add_transaction, hf] at h ⊢
    split_ifs at h ⊢ <;> simp_all

theorem add_transaction_true_state (bc : Blockchain) (tx : Transaction)
    (h : (bc.add_transaction tx).1 = true) :
    (bc.add_transaction tx).2.2.mempool = bc.mempool ++ [(tx.tx_id, tx)] ∧
      (bc.add_transaction tx).2.2.chain = bc.chain ∧ tx.type = "regular" := by
  have hiff := (add_transaction_fst_iff bc tx).mp h
  obtain ⟨⟨v, hf, hle⟩, hs, hr, hi, hty, hdup⟩ := hiff
  have hset := dictSet_of_not_contains bc.mempool tx.tx_id tx hdup
  simp only [add_transaction, hf]
  rw [if_neg (by simp [hle]), if_neg (by simp [hs, hr, hi]),
    if_neg (by simp [hty]), if_neg (by simp [hdup]), if_neg (by simp [hty])]
  exact ⟨hset, rfl, hty⟩

theorem mine_block_fst (H : Block → String) (bc : Blockchain) (miner ts : String)
    (h : bc.chain ≠ [])
    (hex : ∃ n, powOk (H (mineCandidate H bc miner ts h (n + 1))) = true) :
    (mine_block H bc miner ts h hex).1 =
      mineCandidate H bc miner ts h (Nat.find hex + 1) := rfl

theorem mine_block_snd_chain (H : Block → String) (bc : Blockchain) (miner ts : String)
    (h : bc.chain ≠ [])
    (hex : ∃ n, powOk (H (mineCandidate H bc miner ts h (n + 1))) = true) :
    (mine_block H bc miner ts h hex).2.chain =
      bc.chain ++ [(mine_block H bc miner ts h hex).1] := rfl

theorem mine_block_snd_mempool (H : Block → String) (bc : Blockchain) (miner ts : String)
    (h : bc.chain ≠ [])
    (hex : ∃ n, powOk (H (mineCandidate H bc miner ts h (n + 1))) = true) :
    (mine_block H bc miner ts h hex).2.mempool =
      removeConfirmed bc.mempool (mine_block H bc miner ts h hex).1.transactions := rfl

theorem mine_block_fst_pow (H : Block → String) (bc : Blockchain) (miner ts : String)
    (h : bc.chain ≠ [])
    (hex : ∃ n, powOk (H (mineCandidate H bc miner ts h (n + 1))) = true) :
    powOk (H (mine_block H bc miner ts h hex).1) = true := Nat.find_spec hex

theorem mineCandidate_previous_hash (H : Block → String) (bc : Blockchain)
    (miner ts : String) (h : bc.chain ≠ []) (n : Nat) :
    (mineCandidate H bc miner ts h n).previous_hash = H (bc.chain.getLast h) := rfl

theorem mineCandidate_index (H : Block → String) (bc : Blockchain)
    (miner ts : String) (h : bc.chain ≠ []) (n : Nat) :
    (mineCandidate H bc miner ts h n).index = bc.chain.length + 1 := rfl

theorem mineCandidate_transactions (H : Block → String) (bc : Blockchain)
    (miner ts : String) (h : bc.chain ≠ []) (n : Nat) :
    (mineCandidate H bc miner ts h n).transactions =
      coinbaseTx (bc.chain.length + 1) miner :: dictValues bc.mempool := rfl

theorem validate_and_add_block_fst_iff (H : Block → String) (bc : Blockchain)
    (b : Block) (h : bc.chain ≠ []) :
    (validate_and_add_block H bc b h).1 = true ↔
      powOk (H b) = true ∧ b.previous_hash = H (bc.get_latest_block h) := by
  simp only [validate_and_add_block]
  split_ifs with hc
  · simp only [Bool.false_eq_true, false_iff]
    tauto
  · push_neg at hc
    simp [hc.1, hc.2]

theorem validate_and_add_block_false (H : Block → String) (bc : Blockchain)
    (b : Block) (h : bc.chain ≠ []) (hf : (validate_and_add_block H bc b h).1 = false) :
    (validate_and_add_block H bc b h).2 = bc := by
  simp only [validate_and_add_block] at hf ⊢
  split_ifs at hf ⊢
  simp_all

theorem validate_and_add_block_true (H : Block → String) (bc : Blockchain)
    (b : Block) (h : bc.chain ≠ []) (ht : (validate_and_add_block H bc b h).1 = true) :
    (validate_and_add_block H bc b h).2.chain = bc.chain ++ [b] ∧
      (validate_and_add_block H bc b h).2.mempool =
        removeConfirmed bc.mempool b.transactions := by
  simp only [validate_and_add_block] at ht ⊢
  split_ifs at ht ⊢
  simp_all

theorem replace_chain_fst_iff (H : Block → String) (bc : Blockchain)
    (c : List Block) :
    (replace_chain H bc c).1 = true ↔
      is_chain_valid H bc (some c) = true ∧ bc.chain.length < c.length := by
  simp only [replace_chain]
  split_ifs with hc
  · simp only [Bool.false_eq_true, false_iff]
    intro hcon
    rcases hc with hc | hc
    · exact hc hcon.1
    · omega
  · push_neg at hc
    simp only [if_neg, eq_self_iff_true, true_iff]
    exact ⟨hc.1, hc.2⟩

theorem replace_chain_false (H : Block → String) (bc : Blockchain) (c : List Block)
    (hf : (replace_chain H bc c).1 = false) : (replace_chain H bc c).2 = bc := by
  simp only [replace_chain] at hf ⊢
  split_ifs at hf ⊢
  simp_all

theorem replace_chain_true (H : Block → String) (bc : Blockchain) (c : List Block)
    (ht : (replace_chain H bc c).1 = true) :
    (replace_chain H bc c).2.chain = c ∧
      (replace_chain H bc c).2.mempool =
        bc.mempool.filter (fun kv => !(confirmedRegularId c kv.1)) := by
  simp only [replace_chain] at ht ⊢
  split_ifs at ht ⊢
  simp_all

end Blockchain

/-- Every reachable ledger state has a well-formed mempool: entries are
keyed by their transaction's id and are regular-typed.  This is the
"coinbase transactions never reach the mempool" invariant. -/
theorem reach_mempoolWF (H : Block → String) (bc : Blockchain)
    (h : Reach H bc) : MempoolWF bc.mempool := by
  induction h with
  | init => intro kv hkv; simp [freshBlockchain] at hkv
  | mine bc miner ts hne hex hr ih =>
    intro kv hkv
    rw [Blockchain.mine_block_snd_mempool] at hkv
    exact ih kv (mem_removeConfirmed _ _ _ hkv)
  | addBlock bc b hne hr ih =>
    intro kv hkv
    cases hfst : (Blockchain.validate_and_add_block H bc b hne).1 with
    | false =>
      rw [Blockchain.validate_and_add_block_false H bc b hne hfst] at hkv
      exact ih kv hkv
    | true =>
      rw [(Blockchain.validate_and_add_block_true H bc b hne hfst).2] at hkv
      exact ih kv (mem_removeConfirmed _ _ _ hkv)
  | replace bc c hr ih =>
    intro kv hkv
    cases hfst : (Blockchain.replace_chain H bc c).1 with
    | false =>
      rw [Blockchain.replace_chain_false H bc c hfst] at hkv
      exact ih kv hkv
    | true =>
      rw [(Blockchain.replace_chain_true H bc c hfst).2] at hkv
      exact ih kv (List.mem_of_mem_filter hkv)
  | addTx bc tx hr ih =>
    intro kv hkv
    cases hfst : (bc.add_transaction tx).1 with
    | false =>
      rw [Blockchain.add_transaction_fst_false bc tx hfst] at hkv
      exact ih kv hkv
    | true =>
      obtain ⟨hmp, _, hty⟩ := Blockchain.add_transaction_true_state bc tx hfst
      rw [hmp] at hkv
      rcases List.mem_append.mp hkv with hold | hnew
      · exact ih kv hold
      · simp only [List.mem_singleton] at hnew
        subst hnew
        exact ⟨rfl, hty⟩

/-- Shape of every state reached from a fresh ledger by mining alone:
genesis first, one block per mining step, consecutive blocks linked with
proof-of-work, and 1-based sequential index fields. -/
theorem mineSeq_shape (H : Block → String) (bc0 : Blockchain) (n : Nat)
    (bc' : Blockchain) (hs : MineSeq H bc0 n bc') :
    bc0 = freshBlockchain →
    ∃ rest, bc'.chain = GENESIS :: rest ∧ rest.length = n ∧
      List.Chain' (linkedStep H) bc'.chain ∧
      (∀ b ∈ rest, powOk (H b) = true) ∧
      (∀ i (hi : i < bc'.chain.length), (bc'.chain.get ⟨i, hi⟩).index = i + 1) := by
  induction hs with
  | refl =>
    intro h0
    subst h0
    refine ⟨[], rfl, rfl, ?_, ?_, ?_⟩
    · exact List.chain'_singleton _
    · intro b hb; simp at hb
    · intro i hi
      have h1 : i = 0 := by
        simp only [freshBlockchain, List.length_cons, List.length_nil] at hi
        omega
      subst h1
      rfl
  | step m bc2 miner ts h hex hprev ih =>
    intro h0
    obtain ⟨rest, hchain, hlen, hlinks, hpow, hidx⟩ := ih h0
    set blk := (Blockchain.mine_block H bc2 miner ts h hex).1 with hblk
    have hch : (Blockchain.mine_block H bc2 miner ts h hex).2.chain = bc2.chain ++ [blk] :=
      Blockchain.mine_block_snd_chain H bc2 miner ts h hex
    refine ⟨rest ++ [blk], ?_, ?_, ?_, ?_, ?_⟩
    · rw [hch, hchain]; rfl
    · simp [hlen]
    · rw [hch]
      rw [List.chain'_append]
      refine ⟨hlinks, List.chain'_singleton _, ?_⟩
      intro x hx y hy
      rw [List.getLast?_eq_getLast bc2.chain h] at hx
      simp only [Option.mem_def, Option.some_inj] at hx
      simp only [List.head?_cons, Option.mem_def, Option.some_inj] at hy
      subst hx; subst hy
      constructor
      · exact Blockchain.mine_block_fst_pow H bc2 miner ts h hex
      · exact Blockchain.mineCandidate_previous_hash H bc2 miner ts h _
    · intro b hb
      rcases List.mem_append.mp hb with hbo | hbn
      · exact hpow b hbo
      · simp only [List.mem_singleton] at hbn
        subst hbn
        exact Blockchain.mine_block_fst_pow H bc2 miner ts h hex
    · have key : ∀ (L : List Block), L = bc2.chain ++ [blk] →
          ∀ i (hi : i < L.length), (L.get ⟨i, hi⟩).index = i + 1 := by
        intro L hL
        subst hL
        intro i hi
        simp only [List.get_eq_getElem]
        by_cases hlt : i < bc2.chain.length
        · rw [List.getElem_append_left hlt]
          have := hidx i hlt
          simpa using this
        · have hieq : i = bc2.chain.length := by
            simp only [List.length_append, List.length_cons, List.length_nil] at hi
            omega
          rw [List.getElem_concat_length _ _ _ hieq]
          have : blk.index = bc2.chain.length + 1 :=
            Blockchain.mineCandidate_index H bc2 miner ts h _
          omega
      exact key _ hch

/-! ### Claims -/

/-- C1: `replace_chain` adopts the candidate chain if and only if the
candidate passes `is_chain_valid` and is strictly longer than the current
chain; whenever it rejects (returns false) the state — chain and mempool —
is left unchanged. -/
theorem claim_C1 (H : Block → String) (bc : Blockchain) (cand : List Block) :
    ((Blockchain.replace_chain H bc cand).1 = true ↔
      Blockchain.is_chain_valid H bc (some cand) = true ∧
        bc.chain.length < cand.length) ∧
    ((Blockchain.replace_chain H bc cand).1 = false →
      (Blockchain.replace_chain H bc cand).2 = bc) :=
  ⟨Blockchain.replace_chain_fst_iff H bc cand, Blockchain.replace_chain_false H bc cand⟩

/-- C1 witness: rejecting the empty candidate on a fresh ledger leaves the
state unchanged. -/
theorem claim_C1_witness :
    (Blockchain.replace_chain H0 freshBlockchain []).1 = false ∧
    (Blockchain.replace_chain H0 freshBlockchain []).2 = freshBlockchain :=
  ⟨by decide, (claim_C1 H0 freshBlockchain []).2 (by decide)⟩

/-- C2 counterexample: on a fresh ledger, `is_chain_valid` applied to the
empty chain returns `true` — the Python `chain = chain or self.chain`
falls back to the node's own (valid) chain on an empty-list argument —
whereas the claim requires `false` on the empty chain. -/
theorem claim_C2_counterexample :
    Blockchain.is_chain_valid H0 freshBlockchain (some []) = true := by decide

/-- C2 (amended): for every non-empty input chain, `is_chain_valid` returns
true iff the first element is `==`-equal to `GENESIS` and every consecutive
pair of blocks passes the proof-of-work and back-link checks; on the empty
input it instead falls back to validating the node's own chain, exactly as
when no argument is passed. -/
theorem claim_C2_amended (H : Block → String) (bc : Blockchain) (c : List Block) :
    (∀ (hc : c ≠ []),
      (Blockchain.is_chain_valid H bc (some c) = true ↔
        pyEqBlock (c.head hc) GENESIS = true ∧ List.Chain' (linkedStep H) c)) ∧
    Blockchain.is_chain_valid H bc (some []) = Blockchain.is_chain_valid H bc none := by
  constructor
  · intro hc
    cases c with
    | nil => exact absurd rfl hc
    | cons g rest =>
      show (pyEqBlock g GENESIS && Blockchain.chainLinksOk H (g :: rest)) = true ↔ _
      rw [Bool.and_eq_true, chainLinksOk_iff]
      rfl
  · rfl

/-- C2 witness: the fresh one-block chain `[GENESIS]` validates. -/
theorem claim_C2_witness :
    Blockchain.is_chain_valid H0 freshBlockchain (some [GENESIS]) = true :=
  ((claim_C2_amended H0 freshBlockchain [GENESIS]).1 (by decide)).mpr
    ⟨by decide, List.chain'_singleton _⟩

/-- C3: `validate_and_add_block` returns true iff the block passes
proof-of-work and its `previous_hash` equals the digest of the current tip;
on success it appends the block and removes the block's regular transaction
ids from the mempool; on failure neither the chain nor the mempool is
mutated. -/
theorem claim_C3 (H : Block → String) (bc : Blockchain) (b : Block)
    (h : bc.chain ≠ []) :
    ((Blockchain.validate_and_add_block H bc b h).1 = true ↔
      powOk (H b) = true ∧ b.previous_hash = H (bc.get_latest_block h)) ∧
    ((Blockchain.validate_and_add_block H bc b h).1 = true →
      (Blockchain.validate_and_add_block H bc b h).2.chain = bc.chain ++ [b] ∧
      (Blockchain.validate_and_add_block H bc b h).2.mempool =
        bc.mempool.filter (fun kv => !(Blockchain.regularIdInTxs b.transactions kv.1))) ∧
    ((Blockchain.validate_and_add_block H bc b h).1 = false →
      (Blockchain.validate_and_add_block H bc b h).2 = bc) := by
  refine ⟨Blockchain.validate_and_add_block_fst_iff H bc b h, ?_,
    Blockchain.validate_and_add_block_false H bc b h⟩
  intro ht
  obtain ⟨hc, hm⟩ := Blockchain.validate_and_add_block_true H bc b h ht
  exact ⟨hc, by rw [hm, removeConfirmed_eq_filter]⟩

/-- C3 witness: `b0` is accepted on a fresh ledger under `H0` and appended
to the chain. -/
theorem claim_C3_witness :
    (Blockchain.validate_and_add_block H0 freshBlockchain b0 fresh_chain_ne).1 = true ∧
    (Blockchain.validate_and_add_block H0 freshBlockchain b0 fresh_chain_ne).2.chain =
      [GENESIS, b0] := by
  have h := claim_C3 H0 freshBlockchain b0 fresh_chain_ne
  have ht : (Blockchain.validate_and_add_block H0 freshBlockchain b0 fresh_chain_ne).1 = true :=
    h.1.mpr ⟨by decide, by decide⟩
  refine ⟨ht, ?_⟩
  have hc := (h.2.1 ht).1
  simpa using hc

/-- C4 counterexample: a transaction whose amount is `+inf` — a positive
but not finite number — is accepted into the mempool, because the only
amount check is `float(...)` conversion followed by `amt <= 0`. -/
theorem claim_C4_counterexample :
    floatOf txInf.amount = some PyFloat.inf ∧
    (freshBlockchain.add_transaction txInf).1 = true ∧
    (freshBlockchain.add_transaction txInf).2.2.mempool = [(txInf.tx_id, txInf)] := by
  decide

/-- C4 (amended): `add_transaction` returns added=true iff the amount
converts to a float that does not compare `<= 0` (so `+inf` and `nan` pass),
sender, receiver and tx_id are nonempty, the type is `"regular"`, and the id
is not already pending; every rejection leaves the state unchanged, and every
acceptance appends exactly the submitted transaction to the mempool. -/
theorem claim_C4_amended (bc : Blockchain) (tx : Transaction) :
    ((bc.add_transaction tx).1 = true ↔
      (∃ v, floatOf tx.amount = some v ∧ leZeroF v = false) ∧
      tx.sender ≠ "" ∧ tx.receiver ≠ "" ∧ tx.tx_id ≠ "" ∧
      tx.type = "regular" ∧ dictContains bc.mempool tx.tx_id = false) ∧
    ((bc.add_transaction tx).1 = false → (bc.add_transaction tx).2.2 = bc) ∧
    ((bc.add_transaction tx).1 = true →
      (bc.add_transaction tx).2.2.mempool = bc.mempool ++ [(tx.tx_id, tx)]) :=
  ⟨Blockchain.add_transaction_fst_iff bc tx,
   Blockchain.add_transaction_fst_false bc tx,
   fun ht => (Blockchain.add_transaction_true_state bc tx ht).1⟩

/-- C4 witness: the well-formed regular transaction `t1` is accepted into a
fresh mempool. -/
theorem claim_C4_witness :
    (freshBlockchain.add_transaction t1).1 = true ∧
    (freshBlockchain.add_transaction t1).2.2.mempool = [(t1.tx_id, t1)] := by
  have h := claim_C4_amended freshBlockchain t1
  have ht : (freshBlockchain.add_transaction t1).1 = true :=
    h.1.mpr ⟨⟨PyFloat.num 10, by decide, by decide⟩, by decide, by decide, by decide,
      by decide, by decide⟩
  refine ⟨ht, ?_⟩
  have hm := h.2.2 ht
  simpa using hm

/-- C5: after a successful `replace_chain` the mempool equals the prior
mempool minus exactly the ids appearing as regular-type transactions in the
adopted chain; nothing is ever (re)introduced into the mempool by adoption;
and in every reachable state the mempool holds only regular-typed entries,
so no coinbase transaction ever appears in it. -/
theorem claim_C5 (H : Block → String) (bc : Blockchain) (cand : List Block) :
    ((Blockchain.replace_chain H bc cand).1 = true →
      (Blockchain.replace_chain H bc cand).2.mempool =
        bc.mempool.filter (fun kv => !(Blockchain.confirmedRegularId cand kv.1)) ∧
      ∀ kv ∈ (Blockchain.replace_chain H bc cand).2.mempool, kv ∈ bc.mempool) ∧
    (Reach H bc → ∀ kv ∈ bc.mempool, kv.2.type = "regular") := by
  constructor
  · intro ht
    obtain ⟨hc, hm⟩ := Blockchain.replace_chain_true H bc cand ht
    refine ⟨hm, ?_⟩
    intro kv hkv
    rw [hm] at hkv
    exact List.mem_of_mem_filter hkv
  · intro hr kv hkv
    exact (reach_mempoolWF H bc hr kv hkv).2

/-- C5 witness: adopting the valid longer chain `cand2` on a fresh ledger
leaves the (empty) mempool equal to the filtered prior mempool, and the
fresh reachable state has no coinbase entry in its mempool. -/
theorem claim_C5_witness :
    (Blockchain.replace_chain H0 freshBlockchain cand2).1 = true ∧
    (Blockchain.replace_chain H0 freshBlockchain cand2).2.mempool = [] ∧
    (∀ kv ∈ freshBlockchain.mempool, kv.2.type = "regular") := by
  have h := claim_C5 H0 freshBlockchain cand2
  refine ⟨by decide, ?_, h.2 Reach.init⟩
  have hm := (h.1 (by decide)).1
  simpa using hm

/-- C6: mining `n` times from a fresh ledger yields a chain of length
`n + 1` headed by genesis, with consecutive blocks linked through
`previous_hash` and every non-genesis block passing proof-of-work; and each
`mine_block` call produces a block whose transaction list begins with a
coinbase transaction from `"COINBASE"` paying the miner's address the fixed
reward `50`. -/
theorem claim_C6 (H : Block → String) :
    (∀ (n : Nat) (bc' : Blockchain), MineSeq H freshBlockchain n bc' →
      bc'.chain.length = n + 1 ∧
      bc'.chain.head? = some GENESIS ∧
      List.Chain' (linkedStep H) bc'.chain ∧
      ∀ b ∈ bc'.chain.tail, powOk (H b) = true) ∧
    (∀ (bc : Blockchain) (miner ts : String) (h : bc.chain ≠ [])
        (hex : ∃ n, powOk (H (Blockchain.mineCandidate H bc miner ts h (n + 1))) = true),
      ((Blockchain.mine_block H bc miner ts h hex).1).transactions.head? =
        some (Blockchain.coinbaseTx (bc.chain.length + 1) miner) ∧
      (Blockchain.coinbaseTx (bc.chain.length + 1) miner).sender = "COINBASE" ∧
      (Blockchain.coinbaseTx (bc.chain.length + 1) miner).receiver = miner ∧
      (Blockchain.coinbaseTx (bc.chain.length + 1) miner).amount =
        AmountVal.fl (PyFloat.num 50) ∧
      (Blockchain.coinbaseTx (bc.chain.length + 1) miner).type = "coinbase") := by
  constructor
  · intro n bc' hs
    obtain ⟨rest, hchain, hlen, hlinks, hpow, _⟩ :=
      mineSeq_shape H freshBlockchain n bc' hs rfl
    refine ⟨?_, ?_, hlinks, ?_⟩
    · rw [hchain]
      simp [hlen]
    · rw [hchain]
      rfl
    · intro b hb
      rw [hchain] at hb
      exact hpow b hb
  · intro bc miner ts h hex
    exact ⟨rfl, rfl, rfl, rfl, rfl⟩

/-- C6 witness: one mining step on a fresh ledger under `H0` gives a
two-block chain headed by genesis whose non-genesis block passes
proof-of-work, and the mined block starts with the coinbase paying
`"alice"` the reward `50`. -/
theorem claim_C6_witness :
    bc1.chain.length = 1 + 1 ∧
    bc1.chain.head? = some GENESIS ∧
    (∀ b ∈ bc1.chain.tail, powOk (H0 b) = true) ∧
    (Blockchain.mine_block H0 freshBlockchain "alice" "tsA" fresh_chain_ne
        fresh_hex).1.transactions.head? =
      some (Blockchain.coinbaseTx (freshBlockchain.chain.length + 1) "alice") := by
  have h1 := (claim_C6 H0).1 1 bc1 mineSeq_bc1
  have h2 := (claim_C6 H0).2 freshBlockchain "alice" "tsA" fresh_chain_ne fresh_hex
  exact ⟨h1.1, h1.2.1, h1.2.2.2, h2.1⟩

/-- C7 counterexample: with `t1` pending, resubmitting its id with a
non-positive amount is rejected at the amount check and returns the
submitted transaction, not the stored entry, so the claim's "returns the
originally stored mempool entry" fails for this duplicate submission. -/
theorem claim_C7_counterexample :
    dictContains bcA.mempool txBad.tx_id = true ∧
    dictFind? bcA.mempool txBad.tx_id = some t1 ∧
    (bcA.add_transaction txBad).1 = false ∧
    (bcA.add_transaction txBad).2.1 = txBad ∧
    txBad ≠ t1 := by decide

/-- C7 (amended): on a duplicate pending `tx_id`, `add_transaction` returns
added=false and leaves the state unchanged; the returned transaction is the
originally stored mempool entry provided the submission passes the amount,
field-presence and type checks that precede the duplicate check — a
duplicate failing those checks is returned back itself. -/
theorem claim_C7_amended (bc : Blockchain) (tx : Transaction)
    (hdup : dictContains bc.mempool tx.tx_id = true) :
    (bc.add_transaction tx).1 = false ∧
    (bc.add_transaction tx).2.2 = bc ∧
    (∀ v, floatOf tx.amount = some v → leZeroF v = false →
      ¬(tx.sender = "" ∨ tx.receiver = "" ∨ tx.tx_id = "") →
      (tx.type = "regular" ∨ tx.type = "coinbase") →
      (bc.add_transaction tx).2.1 = (dictFind? bc.mempool tx.tx_id).getD tx) := by
  have hfst : (bc.add_transaction tx).1 = false := by
    cases hf : (bc.add_transaction tx).1 with
    | false => rfl
    | true =>
      have := (Blockchain.add_transaction_fst_iff bc tx).mp hf
      rw [this.2.2.2.2.2] at hdup
      exact absurd hdup (by simp)
  refine ⟨hfst, Blockchain.add_transaction_fst_false bc tx hfst, ?_⟩
  intro v hv hle hfields hty
  simp only [Blockchain.add_transaction, hv]
  rw [if_neg (by simp [hle]), if_neg (by simp; tauto), if_neg (not_not_intro hty),
    if_pos hdup]

/-- C7 witness: resubmitting `t1` itself is rejected, changes nothing, and
returns the stored entry. -/
theorem claim_C7_witness :
    (bcA.add_transaction t1).1 = false ∧
    (bcA.add_transaction t1).2.2 = bcA ∧
    (bcA.add_transaction t1).2.1 = t1 := by
  have h := claim_C7_amended bcA t1 (by decide)
  refine ⟨h.1, h.2.1, ?_⟩
  have heq := h.2.2 (PyFloat.num 10) (by decide) (by decide) (by decide)
    (Or.inl (by decide))
  rw [heq]
  decide

/-- The drop branch of the `new_transaction` handler: a falsy or
already-seen id changes nothing and forwards nothing. -/
theorem handleNewTransaction_drop (node : NodeState) (tx : Transaction) (ttl : Int)
    (sender : Peer) (h : tx.tx_id = "" ∨ tx.tx_id ∈ node.seen) :
    handleNewTransaction node tx ttl sender = (node, []) := by
  have hb : (tx.tx_id == "" || node.seen.contains tx.tx_id) = true := by
    simpa using h
  unfold handleNewTransaction
  rw [if_pos hb]

/-- The fresh branch of the `new_transaction` handler: mark seen, run
`add_transaction`, and forward to all peers but the sender iff `ttl > 0`. -/
theorem handleNewTransaction_fresh (node : NodeState) (tx : Transaction) (ttl : Int)
    (sender : Peer) (h1 : tx.tx_id ≠ "") (h2 : tx.tx_id ∉ node.seen) :
    handleNewTransaction node tx ttl sender =
      ({ node with
          blockchain := (node.blockchain.add_transaction tx).2.2
          seen := node.seen ++ [tx.tx_id] },
        if ttl > 0 then
          (node.peers.filter (fun p => ¬ p = sender)).map
            (fun p => { target := p, tx := tx, ttl := ttl - 1 })
        else []) := by
  unfold handleNewTransaction
  rw [if_neg (by simp; exact ⟨h1, h2⟩)]

/-- C8 (amended): the `new_transaction` branch of `listen` drops the
message — no state change, no forwarding — when the id is empty or already
seen; otherwise it always marks the id seen (whatever `add_transaction`
decides), applies `add_transaction`, and forwards to every peer except the
sender with `ttl - 1` exactly when `ttl > 0`.  Consequently a second
delivery of the same (nonempty) id is a complete no-op. -/
theorem claim_C8_amended (node : NodeState) (tx : Transaction) (ttl : Int)
    (sender : Peer) :
    ((tx.tx_id = "" ∨ tx.tx_id ∈ node.seen) →
      handleNewTransaction node tx ttl sender = (node, [])) ∧
    (tx.tx_id ≠ "" → tx.tx_id ∉ node.seen →
      (handleNewTransaction node tx ttl sender).1.seen = node.seen ++ [tx.tx_id] ∧
      (handleNewTransaction node tx ttl sender).1.blockchain =
        (node.blockchain.add_transaction tx).2.2 ∧
      (ttl > 0 →
        (handleNewTransaction node tx ttl sender).2 =
          (node.peers.filter (fun p => ¬ p = sender)).map
            (fun p => { target := p, tx := tx, ttl := ttl - 1 })) ∧
      (¬ ttl > 0 → (handleNewTransaction node tx ttl sender).2 = [])) ∧
    (∀ (tx2 : Transaction) (ttl2 : Int) (sender2 : Peer),
      tx2.tx_id = tx.tx_id → tx.tx_id ≠ "" →
      handleNewTransaction (handleNewTransaction node tx ttl sender).1 tx2 ttl2 sender2 =
        ((handleNewTransaction node tx ttl sender).1, [])) := by
  refine ⟨handleNewTransaction_drop node tx ttl sender, ?_, ?_⟩
  · intro h1 h2
    rw [handleNewTransaction_fresh node tx ttl sender h1 h2]
    refine ⟨rfl, rfl, ?_, ?_⟩
    · intro ht
      simp [ht]
    · intro ht
      simp [ht]
  · intro tx2 ttl2 sender2 hid hne
    by_cases hseen : tx.tx_id ∈ node.seen
    · rw [handleNewTransaction_drop node tx ttl sender (Or.inr hseen)]
      exact handleNewTransaction_drop node tx2 ttl2 sender2 (Or.inr (by rw [hid]; exact hseen))
    · rw [handleNewTransaction_fresh node tx ttl sender hne hseen]
      apply handleNewTransaction_drop
      right
      rw [hid]
      simp

/-- C8 counterexample: a never-seen transaction with an EMPTY id arriving
with `ttl = 4` at a node with a peer is silently dropped — the seen set is
not extended and nothing is forwarded — whereas the claim requires every
not-yet-seen id to be marked seen and forwarded while `ttl > 0`. -/
theorem claim_C8_counterexample :
    txEmptyId.tx_id ∉ node0.seen ∧ (4 : Int) > 0 ∧ node0.peers ≠ [] ∧
    handleNewTransaction node0 txEmptyId 4 ("9.9.9.9", 9) = (node0, []) := by
  refine ⟨by decide, by decide, by decide, ?_⟩
  exact handleNewTransaction_drop node0 txEmptyId 4 ("9.9.9.9", 9) (Or.inl rfl)

/-- C8 witness: a fresh delivery of `t1` to `node0` marks it seen and
forwards it to the one peer with decremented TTL; a second delivery of the
same id is a no-op. -/
theorem claim_C8_witness :
    (handleNewTransaction node0 t1 4 ("9.9.9.9", 9)).1.seen = ["t1"] ∧
    (handleNewTransaction node0 t1 4 ("9.9.9.9", 9)).2 =
      [{ target := ("1.2.3.4", 5), tx := t1, ttl := 3 }] ∧
    handleNewTransaction (handleNewTransaction node0 t1 4 ("9.9.9.9", 9)).1
        t1 4 ("8.8.8.8", 8) =
      ((handleNewTransaction node0 t1 4 ("9.9.9.9", 9)).1, []) := by
  have h := claim_C8_amended node0 t1 4 ("9.9.9.9", 9)
  obtain ⟨hseen, hbc, hfwd, _⟩ := h.2.1 (by decide) (by decide)
  refine ⟨by simpa using hseen, ?_, h.2.2 t1 4 ("8.8.8.8", 8) rfl (by decide)⟩
  rw [hfwd (by decide)]
  decide

/-- C9 counterexample: `validate_and_add_block` never reads the `index`
field, so a block with `index = 999` that passes proof-of-work and links to
the tip is accepted on a fresh ledger, producing a reachable chain whose
index fields are `[1, 999]` instead of the claimed 1-based positions
`[1, 2]`. -/
theorem claim_C9_counterexample :
    (Blockchain.validate_and_add_block H0 freshBlockchain b999 fresh_chain_ne).1 = true ∧
    Reach H0 (Blockchain.validate_and_add_block H0 freshBlockchain b999 fresh_chain_ne).2 ∧
    (Blockchain.validate_and_add_block H0 freshBlockchain b999 fresh_chain_ne).2.chain.map
      Block.index = [1, 999] := by
  exact ⟨by decide, Reach.addBlock freshBlockchain b999 fresh_chain_ne Reach.init, by decide⟩

/-- C9 (amended): in every chain obtained from a fresh ledger by mining
alone, each block's `index` equals its 1-based position; the validation
paths (`validate_and_add_block`, `replace_chain`) do not check `index`, so
the invariant is not maintained across arbitrary block/chain adoption. -/
theorem claim_C9_amended (H : Block → String) (n : Nat) (bc' : Blockchain)
    (hs : MineSeq H freshBlockchain n bc') :
    ∀ i (hi : i < bc'.chain.length), (bc'.chain.get ⟨i, hi⟩).index = i + 1 := by
  obtain ⟨_, _, _, _, _, hidx⟩ := mineSeq_shape H freshBlockchain n bc' hs rfl
  exact hidx

/-- C9 witness: in the chain mined once from fresh, the block at position 2
has index 2. -/
theorem claim_C9_witness :
    (bc1.chain.get ⟨1, bc1_len1⟩).index = 1 + 1 :=
  claim_C9_amended H0 1 bc1 mineSeq_bc1 1 bc1_len1

/-- C10: if every mempool entry is stored under its transaction's id and is
regular-typed — a well-formedness that `add_transaction` preserves — then
`mine_block` includes every pending transaction in the mined block and
leaves the mempool empty. -/
theorem claim_C10 (bc : Blockchain) (hWF : MempoolWF bc.mempool) :
    (∀ (H : Block → String) (miner ts : String) (h : bc.chain ≠ [])
        (hex : ∃ n, powOk (H (Blockchain.mineCandidate H bc miner ts h (n + 1))) = true),
      (Blockchain.mine_block H bc miner ts h hex).2.mempool = []) ∧
    (∀ tx : Transaction, MempoolWF (bc.add_transaction tx).2.2.mempool) := by
  constructor
  · intro H miner ts h hex
    rw [Blockchain.mine_block_snd_mempool]
    apply removeConfirmed_eq_nil
    intro kv hkv
    obtain ⟨hkey, hty⟩ := hWF kv hkv
    refine ⟨kv.2, ?_, hty, hkey.symm⟩
    rw [Blockchain.mine_block_fst, Blockchain.mineCandidate_transactions]
    exact List.mem_cons_of_mem _ (List.mem_map_of_mem Prod.snd hkv)
  · intro tx kv hkv
    cases hfst : (bc.add_transaction tx).1 with
    | false =>
      rw [Blockchain.add_transaction_fst_false bc tx hfst] at hkv
      exact hWF kv hkv
    | true =>
      obtain ⟨hmp, _, hty⟩ := Blockchain.add_transaction_true_state bc tx hfst
      rw [hmp] at hkv
      rcases List.mem_append.mp hkv with hold | hnew
      · exact hWF kv hold
      · simp only [List.mem_singleton] at hnew
        subst hnew
        exact ⟨rfl, hty⟩

/-- C10 witness: mining on the ledger whose mempool holds exactly `t1`
empties the mempool. -/
theorem claim_C10_witness :
    MempoolWF bcA.mempool ∧
    (Blockchain.mine_block H0 bcA "m" "tsB" bcA_chain_ne bcA_hex).2.mempool = [] := by
  have hWF : MempoolWF bcA.mempool := by
    unfold MempoolWF
    decide
  exact ⟨hWF, (claim_C10 bcA hWF).1 H0 "m" "tsB" bcA_chain_ne bcA_hex⟩
